import Mathlib

set_option maxRecDepth 10000

/-!
Verification of the tokenisation-workshop core: the PushDrop script codec,
the admission validator (`TokenTopicManager.identifyAdmissibleOutputs`, both
the current revision and the earlier one), the MongoDB-backed token index
(`TokenStorageManager`), and the query dispatcher (`TokenLookupService.lookup`).

Modelling conventions:
* bytes are `Nat`, a decoded script field is a `List Nat`;
* the external `@bsv/sdk` parsing steps (`Transaction.fromBEEF`,
  `PushDrop.decode`) are abstracted as inputs: a transaction arrives as
  `Option (List (Option (List Field)))` where the outer `none` means
  `fromBEEF` threw, and an inner `none` means `PushDrop.decode` threw on
  that output;
* `JSON.parse (Utils.toUTF8 bytes)` is abstracted as an oracle
  `List Nat → Option JsonMeta`, `none` meaning the parse threw; `JsonMeta`
  records exactly the observations the code makes of the parsed value;
* the MongoDB collection is a `List TokenRecord` in insertion order;
  `insertOne` under the unique `(txid, outputIndex)` index built by
  `ensureIndexes` appends or fails with a duplicate-key error, `updateOne`
  and `deleteOne` act on the first matching document, `find` filters in
  order.
-/

namespace TokenisationWorkshop

/-- A decoded script field: a byte array, each byte a `Nat` below 256. -/
abbrev Field := List Nat

/-- Observations the validator code makes of a value returned by
`JSON.parse`: JavaScript truthiness and the four properties it reads.
A property that is absent or not of the compared type is `none`
(strict inequality against a string or number then holds). -/
structure JsonMeta where
  falsy : Bool
  name : Option String
  symbol : Option String
  decimals : Option Int
  description : Option String
deriving DecidableEq, Repr

/-- A JSON-parse oracle standing for `JSON.parse (Utils.toUTF8 bytes)`:
`none` means the parse threw. -/
abbrev JsonOracle := List Nat → Option JsonMeta

/-- UTF-8 bytes of the protocol marker string `TOKEN`. -/
def tokenMarker : List Nat := [84, 79, 75, 69, 78]

namespace TokenTopicManager

/-- The 32-byte token identifier whose hex form is the constant the current
validator compares `fields[1]` against
(`0000000000000000000000000000000000000000000000000000000000000001`). -/
def goldenTokenId : List Nat := List.replicate 31 0 ++ [1]

/-- JavaScript `Number.MAX_SAFE_INTEGER`. -/
def maxSafeInteger : Nat := 9007199254740991

/-- Unsigned little-endian value of the first eight bytes, following
`Utils.Reader.readUInt64LEBn` (the reader silently truncates when fewer
than eight bytes remain). -/
def readUInt64LE (bytes : List Nat) : Nat :=
  (bytes.take 8).foldr (fun b acc => b + 256 * acc) 0

/-- Per-output validation of the current `identifyAdmissibleOutputs`
(src/src/services/token/TokenTopicManager.ts): at least 5 fields,
`fields[0]` is `TOKEN`, `fields[1]` hex-equals the golden token id,
the amount read from `fields[2]` passes the range guard (the guard is
the intended numeric comparison against 0 and `MAX_SAFE_INTEGER`; an
unsigned read is never negative), and `fields[3]` parses as JSON that is
truthy with name `goose`, symbol `GOOSE`, decimals 5 and description
`something nice`. Any thrown parse is the `none` oracle answer and is
caught by the per-output handler, so it only skips this output. -/
def validOutput (pj : JsonOracle) (fields : List Field) : Bool :=
  if fields.length < 5 then false
  else if fields.getD 0 [] ≠ tokenMarker then false
  else if fields.getD 1 [] ≠ goldenTokenId then false
  else if readUInt64LE (fields.getD 2 []) > maxSafeInteger then false
  else
    match pj (fields.getD 3 []) with
    | none => false
    | some j =>
      if j.falsy then false
      else if j.name ≠ some "goose" then false
      else if j.symbol ≠ some "GOOSE" then false
      else if j.decimals ≠ some 5 then false
      else if j.description ≠ some "something nice" then false
      else true

/-- The output loop of `identifyAdmissibleOutputs`, carrying the index of
the next output: a `none` output is a `PushDrop.decode` throw, caught and
skipped; a rejected output is skipped; an accepted index is collected. -/
def scanOutputs (pj : JsonOracle) : Nat → List (Option (List Field)) → List Nat
  | _, [] => []
  | i, none :: rest => scanOutputs pj (i + 1) rest
  | i, some fields :: rest =>
    if validOutput pj fields then i :: scanOutputs pj (i + 1) rest
    else scanOutputs pj (i + 1) rest

/-- Current `identifyAdmissibleOutputs`: the `outputsToAdmit` list. The
argument is the already-parsed transaction; `none` means
`Transaction.fromBEEF` threw, which the outer handler turns into the
empty admitted set. -/
def identifyAdmissibleOutputs (pj : JsonOracle)
    (tx : Option (List (Option (List Field)))) : List Nat :=
  match tx with
  | none => []
  | some outputs => scanOutputs pj 0 outputs

end TokenTopicManager

namespace TokenTopicManagerPrev

/-- Little-endian parse of `parseAmount` in the earlier revision
(src/unnamed/part_002): a fixed loop over indices 0..7, so the 8-byte
length is assumed (the caller checks it first). -/
def parseAmount (buffer : List Nat) : Nat :=
  (List.range 8).foldl (fun acc i => acc + buffer.getD i 0 * 256 ^ i) 0

/-- Per-output validation of the earlier `identifyAdmissibleOutputs`
revision (src/unnamed/part_002): at least 3 fields, `fields[0]` is
`TOKEN`, the hex of `fields[1]` has 64 characters (32 bytes), `fields[2]`
has exactly 8 bytes, its little-endian value is strictly positive, and
when a 4th field is present it must parse as JSON (`none` from the
oracle is the caught throw, rejecting the output). -/
def validOutput (pj : JsonOracle) (fields : List Field) : Bool :=
  if fields.length < 3 then false
  else if fields.getD 0 [] ≠ tokenMarker then false
  else if (fields.getD 1 []).length ≠ 32 then false
  else if (fields.getD 2 []).length ≠ 8 then false
  else if parseAmount (fields.getD 2 []) ≤ 0 then false
  else if 4 ≤ fields.length then
    match pj (fields.getD 3 []) with
    | none => false
    | some _ => true
  else true

/-- The output loop of the earlier revision, identical control flow to the
current one. -/
def scanOutputs (pj : JsonOracle) : Nat → List (Option (List Field)) → List Nat
  | _, [] => []
  | i, none :: rest => scanOutputs pj (i + 1) rest
  | i, some fields :: rest =>
    if validOutput pj fields then i :: scanOutputs pj (i + 1) rest
    else scanOutputs pj (i + 1) rest

/-- Earlier revision of `identifyAdmissibleOutputs`. -/
def identifyAdmissibleOutputs (pj : JsonOracle)
    (tx : Option (List (Option (List Field)))) : List Nat :=
  match tx with
  | none => []
  | some outputs => scanOutputs pj 0 outputs

end TokenTopicManagerPrev

namespace ScriptCodec

/-- Opcode byte of `OP_DROP` (117, written `script.writeOpCode(117)` in
`createTokenScript`). -/
def OP_DROP : Nat := 117

/-- Pushdata serialization of one chunk, following `Script.writeBin` as
used by `createTokenScript` (src/src/apps/mint.ts) and the spec's push
conventions: length at most 75 is a direct length byte (length 0 gives
the single byte 0, the empty push), 76..255 uses opcode 76 plus one
length byte, up to 65535 uses opcode 77 plus two little-endian length
bytes, and larger lengths use opcode 78 plus four little-endian length
bytes. -/
def writeBin (data : List Nat) : List Nat :=
  if data.length ≤ 75 then data.length :: data
  else if data.length ≤ 255 then 76 :: data.length :: data
  else if data.length ≤ 65535 then
    77 :: data.length % 256 :: data.length / 256 :: data
  else
    78 :: data.length % 256 :: data.length / 256 % 256 ::
      data.length / 2 ^ 16 % 256 :: data.length / 2 ^ 24 % 256 :: data

/-- Byte layout built by `createTokenScript` (src/src/apps/mint.ts),
generalized from its five fixed fields to an arbitrary ordered field
list: push the owner key, `OP_DROP`, push each field in order, and a
terminal `OP_DROP`. -/
def encodeScript (ownerKey : List Nat) (fields : List (List Nat)) : List Nat :=
  writeBin ownerKey ++ [OP_DROP] ++ (fields.map writeBin).flatten ++ [OP_DROP]

/-- Modelled from the spec: script-chunk parsing is performed by the
external `@bsv/sdk` library (`PushDrop.decode`), absent from src/.
Following §4.1/§6, one push chunk is parsed from the head of the byte
stream: a first byte at most 75 is a direct length, 76/77/78 introduce
1-, 2- and 4-byte little-endian lengths; a declared length exceeding the
remaining bytes, or any other leading byte, is malformed (`none`). -/
def parsePush : List Nat → Option (List Nat × List Nat)
  | [] => none
  | b :: rest =>
    if b ≤ 75 then
      if b ≤ rest.length then some (rest.take b, rest.drop b) else none
    else if b = 76 then
      match rest with
      | [] => none
      | l :: r => if l ≤ r.length then some (r.take l, r.drop l) else none
    else if b = 77 then
      match rest with
      | l0 :: l1 :: r =>
        let l := l0 + 256 * l1
        if l ≤ r.length then some (r.take l, r.drop l) else none
      | _ => none
    else if b = 78 then
      match rest with
      | l0 :: l1 :: l2 :: l3 :: r =>
        let l := l0 + 256 * l1 + 2 ^ 16 * l2 + 2 ^ 24 * l3
        if l ≤ r.length then some (r.take l, r.drop l) else none
      | _ => none
    else none

/-- Modelled from the spec: the field loop of script decoding (§4.1) —
every push chunk up to the terminal drop marker or the end of the script
becomes a field in positional order; anything else is malformed. The
fuel argument bounds the recursion; each step consumes at least the
opcode byte, so fuel equal to the remaining length suffices. -/
def decodeFieldsLoop : Nat → List Nat → Option (List (List Nat))
  | _, [] => some []
  | 0, _ :: _ => none
  | fuel + 1, b :: rest =>
    if b = OP_DROP then some []
    else
      match parsePush (b :: rest) with
      | none => none
      | some (d, r) => (decodeFieldsLoop fuel r).map (fun fs => d :: fs)

/-- Modelled from the spec: full script decoding (§4.1) — the first chunk
must be a push (the owner key), the second the drop marker, then the
field loop runs to the terminal drop marker or end of script. -/
def decode (script : List Nat) : Option (List Nat × List (List Nat)) :=
  match parsePush script with
  | none => none
  | some (owner, rest) =>
    match rest with
    | [] => none
    | b :: r =>
      if b = OP_DROP then (decodeFieldsLoop r.length r).map (fun fs => (owner, fs))
      else none

end ScriptCodec

/-- A document of the `tokens` collection
(src/src/services/token/TokenStorageManager.ts, `TokenRecord`);
`createdAt` is the insertion timestamp, `metadata` is the optional parsed
JSON value. -/
structure TokenRecord where
  txid : String
  outputIndex : Nat
  tokenId : String
  amount : Nat
  metadata : Option JsonMeta
  lockingScript : String
  satoshis : Nat
  createdAt : Nat
  spent : Bool
deriving DecidableEq, Repr

/-- One `utxos` entry of a `TokenBalance`. -/
structure TokenBalanceUtxo where
  txid : String
  outputIndex : Nat
  amount : Nat
deriving DecidableEq, Repr

/-- The `TokenBalance` interface of TokenStorageManager.ts. -/
structure TokenBalance where
  tokenId : String
  name : Option String
  symbol : Option String
  decimals : Int
  totalAmount : Nat
  utxos : List TokenBalanceUtxo
deriving DecidableEq, Repr

namespace TokenStorageManager

/-- The `tokens` collection, in insertion (natural) order. -/
abbrev Collection := List TokenRecord

/-- The filter document `(txid, outputIndex)` used by `markAsSpent`,
`deleteToken` and `findToken`, and enforced unique by `ensureIndexes`. -/
def matchesKey (txid : String) (outputIndex : Nat) (r : TokenRecord) : Bool :=
  r.txid == txid && r.outputIndex == outputIndex

/-- Errors a modelled storage call can fail with: `duplicateKey` is the
MongoDB E11000 unique-index violation (the spec's `DuplicateOutput`). -/
inductive StorageError where
  | duplicateKey
deriving DecidableEq, Repr

/-- The empty object `\x7b\x7d` that `|| \x7b\x7d` substitutes for missing
metadata: truthy, with none of the read properties present. -/
def emptyMeta : JsonMeta :=
  { falsy := false, name := none, symbol := none, decimals := none,
    description := none }

/-- The `storeToken` insert: `insertOne` under the unique
`(txid, outputIndex)` index created by `ensureIndexes` appends a record
with `spent := false` and `createdAt := now`, or fails with the
duplicate-key error leaving the collection untouched. -/
def storeToken (col : Collection) (txid : String) (outputIndex : Nat)
    (tokenId : String) (amount : Nat) (metadata : Option JsonMeta)
    (lockingScript : String) (satoshis : Nat) (now : Nat) :
    Except StorageError Collection :=
  if col.any (matchesKey txid outputIndex) then .error .duplicateKey
  else .ok (col ++ [{ txid, outputIndex, tokenId, amount, metadata,
                      lockingScript, satoshis, createdAt := now,
                      spent := false }])

/-- The `markAsSpent` update: `updateOne` sets `spent := true` on the
first document matching the key, and does nothing when none matches. -/
def markAsSpent : Collection → String → Nat → Collection
  | [], _, _ => []
  | r :: rest, txid, outputIndex =>
    if matchesKey txid outputIndex r then { r with spent := true } :: rest
    else r :: markAsSpent rest txid outputIndex

/-- The `deleteToken` eviction: `deleteOne` removes the first document
matching the key, and does nothing when none matches. -/
def deleteToken : Collection → String → Nat → Collection
  | [], _, _ => []
  | r :: rest, txid, outputIndex =>
    if matchesKey txid outputIndex r then rest
    else r :: deleteToken rest txid outputIndex

/-- The `findUnspentByTokenId` query: `find (tokenId, spent := false)`. -/
def findUnspentByTokenId (col : Collection) (tokenId : String) :
    List TokenRecord :=
  col.filter (fun r => r.tokenId == tokenId && r.spent == false)

/-- The balance summary both `getBalance` and `getAllBalances` build from
a group of records: reduced amount total, display metadata from the
first record (`records[0]?.metadata || \x7b\x7d`, `decimals || 0`), and
the utxo projection. -/
def mkBalance (tokenId : String) (records : List TokenRecord) :
    TokenBalance :=
  let totalAmount := records.foldl (fun sum r => sum + r.amount) 0
  let metadata := match records.head? with
    | some r => r.metadata.getD emptyMeta
    | none => emptyMeta
  { tokenId, name := metadata.name, symbol := metadata.symbol,
    decimals := metadata.decimals.getD 0, totalAmount,
    utxos := records.map (fun r =>
      { txid := r.txid, outputIndex := r.outputIndex, amount := r.amount }) }

/-- The `getBalance` query: the balance summary of all unspent records of
the token. -/
def getBalance (col : Collection) (tokenId : String) : TokenBalance :=
  mkBalance tokenId (findUnspentByTokenId col tokenId)

/-- First-occurrence order of the token ids of a record list, mirroring
the key order of the JavaScript `Map` that `getAllBalances` fills in
iteration order. -/
def distinctTokenIds (seen : List String) : List TokenRecord → List String
  | [] => []
  | r :: rest =>
    if r.tokenId ∈ seen then distinctTokenIds seen rest
    else r.tokenId :: distinctTokenIds (r.tokenId :: seen) rest

/-- The `getAllBalances` query: unspent records grouped by `tokenId` in
first-occurrence order (each group keeps record order, as the `Map`
groups do), one balance summary per group. -/
def getAllBalances (col : Collection) : List TokenBalance :=
  let records := col.filter (fun r => r.spent == false)
  (distinctTokenIds [] records).map (fun tid =>
    mkBalance tid (records.filter (fun r => r.tokenId == tid)))

/-- The `findToken` query: `findOne` on the key, first match or `none`. -/
def findToken (col : Collection) (txid : String) (outputIndex : Nat) :
    Option TokenRecord :=
  col.find? (matchesKey txid outputIndex)

/-- Stable insertion step for the descending `createdAt` sort of
`getHistory`. -/
def insertDesc (r : TokenRecord) : List TokenRecord → List TokenRecord
  | [] => [r]
  | x :: xs =>
    if x.createdAt < r.createdAt then r :: x :: xs else x :: insertDesc r xs

/-- Stable sort by `createdAt` descending (`sort (createdAt := -1)` in
`getHistory`). -/
def sortByCreatedAtDesc : List TokenRecord → List TokenRecord
  | [] => []
  | x :: xs => insertDesc x (sortByCreatedAtDesc xs)

/-- The `getHistory` query: all records of the token (spent and unspent),
sorted by `createdAt` descending, truncated to `limit`. -/
def getHistory (col : Collection) (tokenId : String) (limit : Nat) :
    List TokenRecord :=
  (sortByCreatedAtDesc (col.filter (fun r => r.tokenId == tokenId))).take limit

end TokenStorageManager

namespace TokenLookupService

/-- A lookup question as destructured by `lookup`
(src/src/services/token/TokenLookupService.ts): `query.type`,
`query.tokenId` and the optional `query.limit`. -/
structure LookupQuery where
  type : String
  tokenId : String
  limit : Option Nat
deriving DecidableEq, Repr

/-- One element of the arrays the four `lookup` branches return: the
`balance` utxo projection, the `balances` summary projection, the
`history` record projection, and the `utxos` spendable projection. -/
inductive LookupEntry where
  | balanceUtxo (txid : String) (outputIndex : Nat) (amount : Nat)
      (tokenId : String) (name : Option String) (symbol : Option String)
      (decimals : Int)
  | balanceSummary (tokenId : String) (name : Option String)
      (symbol : Option String) (decimals : Int) (totalAmount : Nat)
      (utxoCount : Nat)
  | historyEntry (txid : String) (outputIndex : Nat) (tokenId : String)
      (amount : Nat) (spent : Bool) (createdAt : Nat)
  | utxoEntry (txid : String) (outputIndex : Nat) (amount : Nat)
      (lockingScript : String) (satoshis : Nat)
deriving DecidableEq, Repr

open TokenStorageManager in
/-- The `try` body of `lookup`: the switch over `query.type`. The backing
store is an `Except`: an `error` store makes every storage call reject,
which propagates out of the body; the `default` branch throws
`Unknown query type`. -/
def lookupBody (q : LookupQuery)
    (db : Except String Collection) : Except String (List LookupEntry) :=
  if q.type = "balance" then
    match db with
    | .error e => .error e
    | .ok col =>
      let b := getBalance col q.tokenId
      .ok (b.utxos.map (fun u =>
        .balanceUtxo u.txid u.outputIndex u.amount b.tokenId b.name
          b.symbol b.decimals))
  else if q.type = "balances" then
    match db with
    | .error e => .error e
    | .ok col =>
      .ok ((getAllBalances col).map (fun b =>
        .balanceSummary b.tokenId b.name b.symbol b.decimals b.totalAmount
          b.utxos.length))
  else if q.type = "history" then
    match db with
    | .error e => .error e
    | .ok col =>
      .ok ((getHistory col q.tokenId (q.limit.getD 50)).map (fun h =>
        .historyEntry h.txid h.outputIndex h.tokenId h.amount h.spent
          h.createdAt))
  else if q.type = "utxos" then
    match db with
    | .error e => .error e
    | .ok col =>
      .ok ((findUnspentByTokenId col q.tokenId).map (fun r =>
        .utxoEntry r.txid r.outputIndex r.amount r.lockingScript r.satoshis))
  else .error ("Unknown query type: " ++ q.type)

/-- The whole `lookup` method: the `catch` around the switch logs any
error — the thrown unknown-type error included — and returns the empty
array, so the returned promise always resolves. -/
def lookup (q : LookupQuery)
    (db : Except String TokenStorageManager.Collection) :
    Except String (List LookupEntry) :=
  match lookupBody q db with
  | .ok r => .ok r
  | .error _ => .ok []

end TokenLookupService

/-! Concrete inputs used to exercise the definitions. -/

/-- The parsed form of the goose metadata object the current validator
accepts: truthy, name `goose`, symbol `GOOSE`, decimals 5, description
`something nice`. -/
def gooseMeta : JsonMeta :=
  { falsy := false, name := some "goose", symbol := some "GOOSE",
    decimals := some 5, description := some "something nice" }

/-- UTF-8 bytes of the JSON text
`\x7b"name":"goose","symbol":"GOOSE","decimals":5,"description":"something nice"\x7d`. -/
def gooseMetaBytes : List Nat :=
  [123, 34, 110, 97, 109, 101, 34, 58, 34, 103, 111, 111, 115, 101, 34, 44,
   34, 115, 121, 109, 98, 111, 108, 34, 58, 34, 71, 79, 79, 83, 69, 34, 44,
   34, 100, 101, 99, 105, 109, 97, 108, 115, 34, 58, 53, 44, 34, 100, 101,
   115, 99, 114, 105, 112, 116, 105, 111, 110, 34, 58, 34, 115, 111, 109,
   101, 116, 104, 105, 110, 103, 32, 110, 105, 99, 101, 34, 125]

/-- A concrete JSON-parse oracle: exactly the goose JSON bytes parse, to
`gooseMeta`; every other byte list throws. -/
def parseJsonGoose : JsonOracle :=
  fun bytes => if bytes = gooseMetaBytes then some gooseMeta else none

/-- A 33-byte compressed-public-key shaped owner key. -/
def ownerKeyBytes : List Nat := 2 :: List.replicate 32 7

/-- Eight-byte little-endian encoding of a 64-bit amount, as built by
`createTokenScript`. -/
def amountLE (n : Nat) : List Nat :=
  (List.range 8).map (fun i => n / 256 ^ i % 256)

/-- A five-field list shaped for the current validator — protocol marker,
golden token id, little-endian amount, goose metadata at index 3, one
further field — parametrized by the amount. -/
def fieldsAmount (n : Nat) : List Field :=
  [tokenMarker, TokenTopicManager.goldenTokenId, amountLE n,
   gooseMetaBytes, ownerKeyBytes]

/-- The invariant the unique `(txid, outputIndex)` index of
`ensureIndexes` maintains on the collection: no two documents share the
key. -/
def uniqueKeys (col : TokenStorageManager.Collection) : Prop :=
  col.Pairwise (fun a b => a.txid ≠ b.txid ∨ a.outputIndex ≠ b.outputIndex)

/-! Theorems. -/

/-- C1: the claim fails on the current code and the code contradicts its
own documentation (`Amount must be 8 bytes and greater than 0` in
`getDocumentation`): on a transaction with one five-field output whose
amount field is the eight-byte little-endian encoding of 0 and whose
other fields are fully valid, the current `identifyAdmissibleOutputs`
admits the output (its range guard only rejects values above
`MAX_SAFE_INTEGER`, never 0), while the earlier revision of the same
method rejects the very same field list because of its `amount <= 0`
check. -/
theorem C1_zero_amount_admitted :
    TokenTopicManager.readUInt64LE (amountLE 0) = 0
    ∧ TokenTopicManager.identifyAdmissibleOutputs parseJsonGoose
        (some [some (fieldsAmount 0)]) = [0]
    ∧ TokenTopicManagerPrev.identifyAdmissibleOutputs parseJsonGoose
        (some [some (fieldsAmount 0)]) = [] := by
  refine ⟨by decide, by decide, by decide⟩

/-- C9 counterexample: a query of the unknown type `frobnicate` does not
surface a typed unsupported-query error to the caller — `lookup` resolves
with the empty array, because the `Unknown query type` throw sits inside
the same `try` whose `catch` returns `[]`. The thrown error is visible
only in the `try` body. -/
theorem C9_unknown_type_swallowed :
    TokenLookupService.lookup ⟨"frobnicate", "", none⟩ (.ok []) = .ok []
    ∧ TokenLookupService.lookupBody ⟨"frobnicate", "", none⟩ (.ok [])
        = .error "Unknown query type: frobnicate" := by
  refine ⟨by rfl, by rfl⟩

/-- C9 as amended: a query whose type is not one of `balance`, `balances`,
`history`, `utxos` makes the switch throw the typed unknown-type error
inside the `try` body, but the method's own `catch` converts it — exactly
like any underlying storage error on the four supported types — into an
empty result returned to the caller; the `lookup` promise always
resolves, never rejects. -/
theorem C9_lookup_error_handling :
    (∀ q db, q.type ∉ (["balance", "balances", "history", "utxos"] : List String) →
      TokenLookupService.lookupBody q db
          = .error ("Unknown query type: " ++ q.type)
        ∧ TokenLookupService.lookup q db = .ok [])
    ∧ (∀ q e, TokenLookupService.lookup q (.error e) = .ok [])
    ∧ (∀ q db, ∃ r, TokenLookupService.lookup q db = .ok r) := by
  refine ⟨?_, ?_, ?_⟩
  · intro q db h
    simp only [List.mem_cons, List.mem_singleton, not_or] at h
    obtain ⟨h1, h2, h3, h4⟩ := h
    have hbody : TokenLookupService.lookupBody q db
        = .error ("Unknown query type: " ++ q.type) := by
      simp [TokenLookupService.lookupBody, h1, h2, h3, h4]
    exact ⟨hbody, by simp [TokenLookupService.lookup, hbody]⟩
  · intro q e
    have hbody : ∃ s, TokenLookupService.lookupBody q (.error e) = .error s := by
      simp only [TokenLookupService.lookupBody]
      split_ifs <;> exact ⟨_, rfl⟩
    obtain ⟨s, hs⟩ := hbody
    simp [TokenLookupService.lookup, hs]
  · intro q db
    simp only [TokenLookupService.lookup]
    split
    · exact ⟨_, rfl⟩
    · exact ⟨[], rfl⟩

/-- C9 witness: the amended theorem applied to the concrete unknown query
type `frobnicate2` over a one-record store and to a storage failure on
the supported `balance` type. -/
theorem C9_lookup_error_handling_witness :
    (TokenLookupService.lookupBody ⟨"frobnicate2", "t", none⟩ (.ok [])
        = .error "Unknown query type: frobnicate2"
      ∧ TokenLookupService.lookup ⟨"frobnicate2", "t", none⟩ (.ok []) = .ok [])
    ∧ TokenLookupService.lookup ⟨"balance", "t", none⟩ (.error "down") = .ok [] :=
  ⟨C9_lookup_error_handling.1 ⟨"frobnicate2", "t", none⟩ (.ok []) (by decide),
   C9_lookup_error_handling.2.1 ⟨"balance", "t", none⟩ "down"⟩

/-- C10 counterexample: 4 is not the minimum field count of either
validator revision, and the earlier revision admits lists of fewer than
4 fields. A four-field list whose fields all pass every later stage is
rejected by the current validator (its threshold is 5 — metadata is
mandatory at index 3, not optional as a 5th field), as the same list
with one further field appended is admitted; and the earlier revision
(threshold 3) admits a three-field list outright. -/
theorem C10_four_not_minimum :
    TokenTopicManager.validOutput parseJsonGoose
      [tokenMarker, TokenTopicManager.goldenTokenId, amountLE 1000000,
       gooseMetaBytes] = false
    ∧ TokenTopicManager.validOutput parseJsonGoose (fieldsAmount 1000000) = true
    ∧ TokenTopicManagerPrev.validOutput parseJsonGoose
        [tokenMarker, TokenTopicManager.goldenTokenId, amountLE 1000000]
        = true := by
  refine ⟨by decide, by decide, by decide⟩

/-- C10 as amended: the current validator's first stage rejects every
field list with fewer than 5 fields and 5 is the attained minimum
(metadata is mandatory as the field at index 3); the earlier revision's
first stage rejects every list with fewer than 3 fields, with 3 attained
(metadata optional as a 4th field). -/
theorem C10_field_count_thresholds :
    (∀ pj fields, fields.length < 5 →
      TokenTopicManager.validOutput pj fields = false)
    ∧ TokenTopicManager.validOutput parseJsonGoose
        (fieldsAmount 700) = true
    ∧ (∀ pj fields, fields.length < 3 →
      TokenTopicManagerPrev.validOutput pj fields = false)
    ∧ TokenTopicManagerPrev.validOutput parseJsonGoose
        [tokenMarker, TokenTopicManager.goldenTokenId, amountLE 700]
        = true := by
  refine ⟨?_, by decide, ?_, by decide⟩
  · intro pj fields h
    simp [TokenTopicManager.validOutput, h]
  · intro pj fields h
    simp [TokenTopicManagerPrev.validOutput, h]

/-- C8: totality of the embedded `identifyAdmissibleOutputs` (every Lean
function here is total, mirroring the two `try`/`catch` layers of the
code) together with the locality of its output loop: a
`Transaction.fromBEEF` throw degrades to the empty admitted set; the
scan of a concatenation is the concatenation of the scans, so the
admitted indices contributed by later outputs never depend on earlier
ones; and a decode throw (`none` output) or a validation failure merely
advances the index, leaving the processing of subsequent outputs
untouched. -/
theorem C8_scan_locality :
    (∀ pj, TokenTopicManager.identifyAdmissibleOutputs pj none = [])
    ∧ (∀ pj k xs ys, TokenTopicManager.scanOutputs pj k (xs ++ ys)
        = TokenTopicManager.scanOutputs pj k xs
          ++ TokenTopicManager.scanOutputs pj (k + xs.length) ys)
    ∧ (∀ pj k ys, TokenTopicManager.scanOutputs pj k (none :: ys)
        = TokenTopicManager.scanOutputs pj (k + 1) ys)
    ∧ (∀ pj k f ys, TokenTopicManager.validOutput pj f = false →
        TokenTopicManager.scanOutputs pj k (some f :: ys)
          = TokenTopicManager.scanOutputs pj (k + 1) ys) := by
  refine ⟨fun pj => rfl, ?_, fun pj k ys => rfl, ?_⟩
  · intro pj k xs ys
    induction xs generalizing k with
    | nil => simp [TokenTopicManager.scanOutputs]
    | cons o xs ih =>
      have harith : k + 1 + xs.length = k + (xs.length + 1) := by omega
      cases o with
      | none =>
        simp only [List.cons_append, TokenTopicManager.scanOutputs,
          List.length_cons, List.append_eq, ih (k + 1), harith]
      | some f =>
        by_cases hv : TokenTopicManager.validOutput pj f = true
        · simp only [List.cons_append, TokenTopicManager.scanOutputs, hv,
            if_pos, List.length_cons, List.append_eq, ih (k + 1), harith,
            List.cons_append]
        · simp only [List.cons_append, TokenTopicManager.scanOutputs,
            if_neg hv, List.length_cons, List.append_eq, ih (k + 1), harith]
  · intro pj k f ys h
    simp [TokenTopicManager.scanOutputs, h]

/-- C8 witness: the locality law applied to a transaction whose first
output fails validation (the empty field list) followed by a valid
output — the failure only advances the index. -/
theorem C8_scan_locality_witness :
    TokenTopicManager.scanOutputs parseJsonGoose 0
        (some [] :: [some (fieldsAmount 5)])
      = TokenTopicManager.scanOutputs parseJsonGoose 1
          [some (fieldsAmount 5)] :=
  C8_scan_locality.2.2.2 parseJsonGoose 0 [] [some (fieldsAmount 5)]
    (by decide)

/-- Everything the current per-output validation guarantees about an
accepted field list, extracted check by check. -/
theorem validOutput_checks {pj : JsonOracle} {fields : List Field}
    (h : TokenTopicManager.validOutput pj fields = true) :
    5 ≤ fields.length
    ∧ fields.getD 0 [] = tokenMarker
    ∧ fields.getD 1 [] = TokenTopicManager.goldenTokenId
    ∧ ∃ j, pj (fields.getD 3 []) = some j ∧ j.falsy = false
        ∧ j.name = some "goose" ∧ j.symbol = some "GOOSE"
        ∧ j.decimals = some 5 ∧ j.description = some "something nice" := by
  unfold TokenTopicManager.validOutput at h
  split_ifs at h with h1 h2 h3 h4
  split at h
  · exact absurd h (by simp)
  · rename_i j hpj
    split_ifs at h with h5 h6 h7 h8 h9
    exact ⟨by omega, not_not.mp h2, not_not.mp h3,
      j, hpj, by simpa using h5, not_not.mp h6, not_not.mp h7,
      not_not.mp h8, not_not.mp h9⟩

/-- Every index the output loop collects points at an output that
decoded and validated. -/
theorem mem_scanOutputs {pj : JsonOracle} {k i : Nat}
    {outs : List (Option (List Field))}
    (h : i ∈ TokenTopicManager.scanOutputs pj k outs) :
    ∃ j fields, i = k + j ∧ outs[j]? = some (some fields)
      ∧ TokenTopicManager.validOutput pj fields = true := by
  induction outs generalizing k with
  | nil => simp [TokenTopicManager.scanOutputs] at h
  | cons o rest ih =>
    cases o with
    | none =>
      rw [show TokenTopicManager.scanOutputs pj k (none :: rest)
          = TokenTopicManager.scanOutputs pj (k + 1) rest from rfl] at h
      obtain ⟨j, fields, hij, hj, hv⟩ := ih h
      exact ⟨j + 1, fields, by omega, by simpa using hj, hv⟩
    | some f =>
      by_cases hv : TokenTopicManager.validOutput pj f = true
      · rw [show TokenTopicManager.scanOutputs pj k (some f :: rest)
            = k :: TokenTopicManager.scanOutputs pj (k + 1) rest by
          simp [TokenTopicManager.scanOutputs, hv]] at h
        rcases List.mem_cons.mp h with rfl | h2
        · exact ⟨0, f, by omega, by simp, hv⟩
        · obtain ⟨j, fields, hij, hj, hv2⟩ := ih h2
          exact ⟨j + 1, fields, by omega, by simpa using hj, hv2⟩
      · rw [show TokenTopicManager.scanOutputs pj k (some f :: rest)
            = TokenTopicManager.scanOutputs pj (k + 1) rest by
          simp [TokenTopicManager.scanOutputs, hv]] at h
        obtain ⟨j, fields, hij, hj, hv2⟩ := ih h
        exact ⟨j + 1, fields, by omega, by simpa using hj, hv2⟩

/-- C4: every output index the current `identifyAdmissibleOutputs`
admits carries the fixed 32-byte token id
`0000000000000000000000000000000000000000000000000000000000000001` as
its second decoded field, and its metadata field (the field at index 3)
parses as JSON with name `goose`, symbol `GOOSE`, decimals 5 and
description `something nice`; contrapositively, an output with any other
token id or metadata is never admitted by this validator. -/
theorem C4_admitted_constraints {pj : JsonOracle}
    {outputs : List (Option (List Field))} {i : Nat}
    (h : i ∈ TokenTopicManager.identifyAdmissibleOutputs pj (some outputs)) :
    ∃ fields, outputs[i]? = some (some fields)
      ∧ fields.getD 1 [] = TokenTopicManager.goldenTokenId
      ∧ ∃ j, pj (fields.getD 3 []) = some j
          ∧ j.name = some "goose" ∧ j.symbol = some "GOOSE"
          ∧ j.decimals = some 5 ∧ j.description = some "something nice" := by
  obtain ⟨j, fields, hij, hj, hv⟩ := mem_scanOutputs h
  obtain ⟨-, -, htid, jm, hpj, -, hn, hs, hd, hdesc⟩ := validOutput_checks hv
  exact ⟨fields, by simpa [hij] using hj, htid, jm, hpj, hn, hs, hd, hdesc⟩

/-- C4 witness: the constraint theorem applied to a one-output
transaction that the validator admits at index 0. -/
theorem C4_admitted_constraints_witness :
    ∃ fields, [some (fieldsAmount 1000000)][(0 : Nat)]? = some (some fields)
      ∧ fields.getD 1 [] = TokenTopicManager.goldenTokenId
      ∧ ∃ j, parseJsonGoose (fields.getD 3 []) = some j
          ∧ j.name = some "goose" ∧ j.symbol = some "GOOSE"
          ∧ j.decimals = some 5 ∧ j.description = some "something nice" :=
  @C4_admitted_constraints parseJsonGoose [some (fieldsAmount 1000000)] 0
    (by decide)

/-- Parsing one encoded push chunk from the head of a byte stream
recovers exactly the pushed data and the remaining stream, for data
below the 2^32-byte pushdata limit. -/
theorem parsePush_writeBin (data rest : List Nat) (h : data.length < 2 ^ 32) :
    ScriptCodec.parsePush (ScriptCodec.writeBin data ++ rest) = some (data, rest) := by
  have hlen : data.length ≤ (data ++ rest).length := by
    simp [List.length_append]
  have htake : (data ++ rest).take data.length = data := List.take_left data rest
  have hdrop : (data ++ rest).drop data.length = rest := List.drop_left data rest
  unfold ScriptCodec.writeBin
  split_ifs with h1 h2 h3
  · simp only [List.cons_append, ScriptCodec.parsePush]
    rw [if_pos h1, if_pos hlen, htake, hdrop]
  · simp only [List.cons_append, ScriptCodec.parsePush]
    rw [if_neg (by omega), if_pos trivial, if_pos hlen, htake, hdrop]
  · simp only [List.cons_append, ScriptCodec.parsePush]
    rw [if_neg (by omega), if_neg (by omega), if_pos trivial]
    have hl : data.length % 256 + 256 * (data.length / 256) = data.length := by omega
    rw [hl, if_pos hlen, htake, hdrop]
  · simp only [List.cons_append, ScriptCodec.parsePush]
    rw [if_neg (by omega), if_neg (by omega), if_neg (by omega), if_pos trivial]
    have hl : data.length % 256 + 256 * (data.length / 256 % 256)
        + 2 ^ 16 * (data.length / 2 ^ 16 % 256)
        + 2 ^ 24 * (data.length / 2 ^ 24 % 256) = data.length := by omega
    rw [hl, if_pos hlen, htake, hdrop]

/-- An encoded push never starts with the drop-marker byte: its first
byte is a direct length of at most 75 or one of the extended-push
opcodes 76, 77, 78, none of which is 117. -/
theorem writeBin_head_ne_drop (data : List Nat) :
    ∃ b t, ScriptCodec.writeBin data = b :: t ∧ b ≠ ScriptCodec.OP_DROP := by
  unfold ScriptCodec.writeBin ScriptCodec.OP_DROP
  split_ifs with h1 h2 h3
  · exact ⟨data.length, data, rfl, by omega⟩
  · exact ⟨76, _, rfl, by omega⟩
  · exact ⟨77, _, rfl, by omega⟩
  · exact ⟨78, _, rfl, by omega⟩

/-- The field loop recovers an encoded field sequence exactly, up to the
terminal drop marker, whenever the fuel covers the remaining bytes. -/
theorem decodeFieldsLoop_encode (fields : List (List Nat)) :
    ∀ fuel, (∀ f ∈ fields, f.length < 2 ^ 32) →
    ((fields.map ScriptCodec.writeBin).flatten ++ [ScriptCodec.OP_DROP]).length ≤ fuel →
    ScriptCodec.decodeFieldsLoop fuel
      ((fields.map ScriptCodec.writeBin).flatten ++ [ScriptCodec.OP_DROP]) = some fields := by
  induction fields with
  | nil =>
    intro fuel _ hfuel
    simp only [List.map_nil, List.flatten_nil, List.nil_append, List.length_cons,
      List.length_nil] at hfuel ⊢
    match fuel, hfuel with
    | fuel + 1, _ =>
      simp [ScriptCodec.decodeFieldsLoop]
  | cons f fs ih =>
    intro fuel hlen hfuel
    obtain ⟨b, t, hw, hb⟩ := writeBin_head_ne_drop f
    have hfl : f.length < 2 ^ 32 := hlen f (List.mem_cons_self f fs)
    have hshape : ((f :: fs).map ScriptCodec.writeBin).flatten ++ [ScriptCodec.OP_DROP]
        = ScriptCodec.writeBin f
          ++ ((fs.map ScriptCodec.writeBin).flatten ++ [ScriptCodec.OP_DROP]) := by
      simp [List.append_assoc]
    rw [hshape, hw, List.cons_append]
    have hlen2 : ((fs.map ScriptCodec.writeBin).flatten ++ [ScriptCodec.OP_DROP]).length
        + 1 ≤ fuel := by
      rw [hshape, hw] at hfuel
      simp only [List.cons_append, List.length_cons, List.length_append] at hfuel ⊢
      omega
    match fuel, hlen2 with
    | fuel + 1, _ =>
      show ScriptCodec.decodeFieldsLoop (fuel + 1)
          (b :: (t ++ ((fs.map ScriptCodec.writeBin).flatten ++ [ScriptCodec.OP_DROP])))
        = some (f :: fs)
      rw [ScriptCodec.decodeFieldsLoop]
      rw [if_neg hb]
      rw [show b :: (t ++ ((fs.map ScriptCodec.writeBin).flatten ++ [ScriptCodec.OP_DROP]))
          = ScriptCodec.writeBin f
            ++ ((fs.map ScriptCodec.writeBin).flatten ++ [ScriptCodec.OP_DROP]) by
        rw [hw, List.cons_append]]
      rw [parsePush_writeBin _ _ hfl]
      dsimp only
      rw [ih fuel (fun g hg => hlen g (List.mem_cons_of_mem f hg)) (by omega)]
      rfl

/-- C3: decoding the script produced by the encoder — push of the owner
key, drop marker, each field pushed in order with its push-data length
prefix, terminal drop marker — yields back exactly the owner key and the
field list, in order, zero-length fields included, for chunks below the
2^32-byte pushdata limit (beyond it the JavaScript encoder throws). -/
theorem C3_roundtrip (owner : List Nat) (fields : List (List Nat))
    (howner : owner.length < 2 ^ 32)
    (hfields : ∀ f ∈ fields, f.length < 2 ^ 32) :
    ScriptCodec.decode (ScriptCodec.encodeScript owner fields)
      = some (owner, fields) := by
  unfold ScriptCodec.encodeScript ScriptCodec.decode
  rw [show ScriptCodec.writeBin owner ++ [ScriptCodec.OP_DROP]
        ++ (fields.map ScriptCodec.writeBin).flatten ++ [ScriptCodec.OP_DROP]
      = ScriptCodec.writeBin owner
        ++ (ScriptCodec.OP_DROP
            :: ((fields.map ScriptCodec.writeBin).flatten ++ [ScriptCodec.OP_DROP])) by
    simp [List.append_assoc]]
  rw [parsePush_writeBin _ _ howner]
  dsimp only
  rw [if_pos rfl]
  rw [decodeFieldsLoop_encode fields _ hfields (by omega)]
  rfl

/-- C3 witness: the round trip at a concrete owner key and field list
that includes a zero-length field. -/
theorem C3_roundtrip_witness :
    ScriptCodec.decode (ScriptCodec.encodeScript ownerKeyBytes
        [tokenMarker, [], TokenTopicManager.goldenTokenId, amountLE 1000000])
      = some (ownerKeyBytes,
          [tokenMarker, [], TokenTopicManager.goldenTokenId, amountLE 1000000]) :=
  C3_roundtrip ownerKeyBytes
    [tokenMarker, [], TokenTopicManager.goldenTokenId, amountLE 1000000]
    (by decide) (by decide)

/-- C10 witness: the amended theorem applied to the empty field list and
to a two-field list, both rejected. -/
theorem C10_field_count_thresholds_witness :
    TokenTopicManager.validOutput parseJsonGoose [] = false
    ∧ TokenTopicManagerPrev.validOutput parseJsonGoose
        [tokenMarker, TokenTopicManager.goldenTokenId] = false :=
  ⟨C10_field_count_thresholds.1 parseJsonGoose [] (by decide),
   C10_field_count_thresholds.2.2.1 parseJsonGoose
     [tokenMarker, TokenTopicManager.goldenTokenId] (by decide)⟩

/-- Characterization of the key filter: it holds exactly on records with
the given `txid` and `outputIndex`. -/
theorem matchesKey_iff {txid : String} {i : Nat} {r : TokenRecord} :
    TokenStorageManager.matchesKey txid i r = true
      ↔ r.txid = txid ∧ r.outputIndex = i := by
  simp [TokenStorageManager.matchesKey]

/-- Every record matches its own key. -/
theorem matchesKey_self (r : TokenRecord) :
    TokenStorageManager.matchesKey r.txid r.outputIndex r = true := by
  simp [TokenStorageManager.matchesKey]

/-- Setting `spent := true` on a record already spent changes nothing. -/
theorem set_spent_self (r : TokenRecord) (h : r.spent = true) :
    { r with spent := true } = r := by
  cases r
  simp_all

/-- The amount reduce of the storage manager is the sum of the mapped
amounts. -/
theorem foldl_amount (records : List TokenRecord) (n : Nat) :
    records.foldl (fun s r => s + r.amount) n
      = n + (records.map TokenRecord.amount).sum := by
  induction records generalizing n with
  | nil => simp
  | cons r rest ih =>
    simp only [List.foldl_cons, ih, List.map_cons, List.sum_cons]
    omega

/-- C5: admitting the same `(txid, outputIndex)` twice stores exactly one
record carrying the first call's data: under the unique index, the first
`storeToken` appends the record with `spent = false`, the second fails
with the duplicate-key error (the spec's `DuplicateOutput`) without
touching the collection — the error is a value, not a crash — and the
only record under the key is the first call's. -/
theorem C5_idempotent_admission (col : TokenStorageManager.Collection)
    (txid : String) (i : Nat)
    (tid1 : String) (amt1 : Nat) (md1 : Option JsonMeta) (ls1 : String)
    (sat1 t1 : Nat)
    (tid2 : String) (amt2 : Nat) (md2 : Option JsonMeta) (ls2 : String)
    (sat2 t2 : Nat)
    (h : ∀ r ∈ col, TokenStorageManager.matchesKey txid i r = false) :
    TokenStorageManager.storeToken col txid i tid1 amt1 md1 ls1 sat1 t1
      = .ok (col ++ [TokenRecord.mk txid i tid1 amt1 md1 ls1 sat1 t1 false])
    ∧ TokenStorageManager.storeToken
        (col ++ [TokenRecord.mk txid i tid1 amt1 md1 ls1 sat1 t1 false])
        txid i tid2 amt2 md2 ls2 sat2 t2
      = .error .duplicateKey
    ∧ (col ++ [TokenRecord.mk txid i tid1 amt1 md1 ls1 sat1 t1 false]).filter
        (TokenStorageManager.matchesKey txid i)
      = [TokenRecord.mk txid i tid1 amt1 md1 ls1 sat1 t1 false] := by
  have hany : col.any (TokenStorageManager.matchesKey txid i) = false := by
    rw [List.any_eq_false]
    intro r hr
    simp [h r hr]
  have hfil : col.filter (TokenStorageManager.matchesKey txid i) = [] := by
    rw [List.filter_eq_nil_iff]
    intro r hr
    simp [h r hr]
  have hmatch : TokenStorageManager.matchesKey txid i
      (TokenRecord.mk txid i tid1 amt1 md1 ls1 sat1 t1 false) = true := by
    simp [TokenStorageManager.matchesKey]
  refine ⟨?_, ?_, ?_⟩
  · simp [TokenStorageManager.storeToken, hany]
  · simp [TokenStorageManager.storeToken, List.any_append, hany, hmatch]
  · simp [List.filter_append, hfil, hmatch]

/-- C5 witness: double admission of `("a", 0)` into the empty collection:
the first call stores the record, the second fails with the duplicate-key
error and the stored record keeps the first call's data. -/
theorem C5_idempotent_admission_witness :
    TokenStorageManager.storeToken [] "a" 0 "t" 700 none "l" 1000 1
      = .ok [TokenRecord.mk "a" 0 "t" 700 none "l" 1000 1 false]
    ∧ TokenStorageManager.storeToken
        [TokenRecord.mk "a" 0 "t" 700 none "l" 1000 1 false]
        "a" 0 "t2" 5 none "l2" 7 2
      = .error .duplicateKey
    ∧ ([] ++ [TokenRecord.mk "a" 0 "t" 700 none "l" 1000 1 false]).filter
        (TokenStorageManager.matchesKey "a" 0)
      = [TokenRecord.mk "a" 0 "t" 700 none "l" 1000 1 false] :=
  C5_idempotent_admission [] "a" 0 "t" 700 none "l" 1000 1
    "t2" 5 none "l2" 7 2 (by simp)

/-- Positionwise effect of `markAsSpent`: each document is either left
unchanged or replaced by itself with `spent := true`. -/
theorem markAsSpent_getElem (col : TokenStorageManager.Collection)
    (txid : String) (i : Nat) :
    ∀ k : Nat, (TokenStorageManager.markAsSpent col txid i)[k]? = col[k]?
      ∨ ∃ r : TokenRecord, col[k]? = some r
          ∧ (TokenStorageManager.markAsSpent col txid i)[k]?
              = some { r with spent := true } := by
  induction col with
  | nil => intro k; left; rfl
  | cons r rest ih =>
    intro k
    rw [TokenStorageManager.markAsSpent]
    by_cases hm : TokenStorageManager.matchesKey txid i r = true
    · rw [if_pos hm]
      match k with
      | 0 => right; exact ⟨r, by simp, by simp⟩
      | k + 1 => left; simp
    · rw [if_neg hm]
      match k with
      | 0 => left; simp
      | k + 1 =>
        rcases ih k with h | ⟨a, ha, ha2⟩
        · left; simpa using h
        · right; exact ⟨a, by simpa using ha, by simpa using ha2⟩

/-- C6: `markAsSpent` is a monotone no-op on settled keys — when every
record under the key is already spent (in particular when the key is
already spent, or when the key was never seen, the `updateOne` matching
nothing), the collection is unchanged and no error arises (the embedded
update is total); and in general each document is either untouched or
has `spent` set to `true`, so a spent record is never reverted to
unspent. -/
theorem C6_markSpent_monotone :
    (∀ col txid i,
      (∀ r ∈ col, TokenStorageManager.matchesKey txid i r = true →
        r.spent = true) →
      TokenStorageManager.markAsSpent col txid i = col)
    ∧ (∀ (col : TokenStorageManager.Collection) (txid : String) (i k : Nat),
      (TokenStorageManager.markAsSpent col txid i)[k]? = col[k]?
      ∨ ∃ r : TokenRecord, col[k]? = some r
          ∧ (TokenStorageManager.markAsSpent col txid i)[k]?
              = some { r with spent := true }) := by
  constructor
  · intro col txid i h
    induction col with
    | nil => rfl
    | cons r rest ih =>
      rw [TokenStorageManager.markAsSpent]
      by_cases hm : TokenStorageManager.matchesKey txid i r = true
      · rw [if_pos hm, set_spent_self r (h r (List.mem_cons_self r rest) hm)]
      · rw [if_neg hm, ih (fun a ha hma => h a (List.mem_cons_of_mem r ha) hma)]
  · intro col txid i k
    exact markAsSpent_getElem col txid i k

/-- C6 witness: marking an already-spent record spent again, and marking
a key the collection never saw, both leave the collection unchanged. -/
theorem C6_markSpent_monotone_witness :
    TokenStorageManager.markAsSpent
        [TokenRecord.mk "a" 0 "t" 700 none "l" 1000 1 true] "a" 0
      = [TokenRecord.mk "a" 0 "t" 700 none "l" 1000 1 true]
    ∧ TokenStorageManager.markAsSpent
        [TokenRecord.mk "a" 0 "t" 700 none "l" 1000 1 true] "zz" 9
      = [TokenRecord.mk "a" 0 "t" 700 none "l" 1000 1 true] :=
  ⟨C6_markSpent_monotone.1 [TokenRecord.mk "a" 0 "t" 700 none "l" 1000 1 true]
      "a" 0 (by decide),
   C6_markSpent_monotone.1 [TokenRecord.mk "a" 0 "t" 700 none "l" 1000 1 true]
      "zz" 9 (by decide)⟩

/-- Spending one unspent record of a token removes exactly its amount
from the unspent sum of that token, under the unique-key invariant. -/
theorem sumUnspent_markAsSpent (r : TokenRecord) (tid : String) :
    ∀ col : TokenStorageManager.Collection, uniqueKeys col → r ∈ col →
    r.spent = false → r.tokenId = tid →
    ((TokenStorageManager.findUnspentByTokenId col tid).map
        TokenRecord.amount).sum
      = ((TokenStorageManager.findUnspentByTokenId
          (TokenStorageManager.markAsSpent col r.txid r.outputIndex) tid).map
            TokenRecord.amount).sum + r.amount := by
  intro col
  induction col with
  | nil =>
    intro _ hmem
    simp at hmem
  | cons a rest ih =>
    intro hu hmem hspent htid
    rcases List.pairwise_cons.mp hu with ⟨ha, hurest⟩
    rw [TokenStorageManager.markAsSpent]
    by_cases hm : TokenStorageManager.matchesKey r.txid r.outputIndex a = true
    · have hra : r = a := by
        rcases List.mem_cons.mp hmem with h | h
        · exact h
        · exfalso
          rcases matchesKey_iff.mp hm with ⟨ht, ho⟩
          rcases ha r h with hne | hne
          · exact hne ht
          · exact hne ho
      subst hra
      rw [if_pos hm]
      simp only [TokenStorageManager.findUnspentByTokenId, List.filter_cons]
      have hpass : (r.tokenId == tid && r.spent == false) = true := by
        simp [htid, hspent]
      have hfail : ¬ ((({ r with spent := true } : TokenRecord).tokenId == tid
          && ({ r with spent := true } : TokenRecord).spent == false) = true) := by
        simp
      rw [if_pos hpass, if_neg hfail]
      simp only [List.map_cons, List.sum_cons]
      omega
    · have hmem2 : r ∈ rest := by
        rcases List.mem_cons.mp hmem with h | h
        · exfalso
          rw [h] at hm
          exact hm (matchesKey_self a)
        · exact h
      rw [if_neg hm]
      have hrec := ih hurest hmem2 hspent htid
      simp only [TokenStorageManager.findUnspentByTokenId,
        List.filter_cons] at hrec ⊢
      by_cases hp : (a.tokenId == tid && a.spent == false) = true
      · rw [if_pos hp, if_pos hp]
        simp only [List.map_cons, List.sum_cons]
        omega
      · rw [if_neg hp, if_neg hp]
        exact hrec

/-- C2: the balance invariant — `getBalance` reports exactly the sum of
the amounts of the records `findUnspentByTokenId` returns; and after
`markAsSpent` on one currently-unspent record of a token (under the
unique-key invariant of the collection), the balance of that token drops
by exactly that record's amount. -/
theorem C2_balance_invariant :
    (∀ col tid, (TokenStorageManager.getBalance col tid).totalAmount
        = ((TokenStorageManager.findUnspentByTokenId col tid).map
            TokenRecord.amount).sum)
    ∧ (∀ (col : TokenStorageManager.Collection) (r : TokenRecord),
        uniqueKeys col → r ∈ col → r.spent = false →
        (TokenStorageManager.getBalance col r.tokenId).totalAmount
          = (TokenStorageManager.getBalance
              (TokenStorageManager.markAsSpent col r.txid r.outputIndex)
              r.tokenId).totalAmount + r.amount) := by
  have htot : ∀ col tid, (TokenStorageManager.getBalance col tid).totalAmount
      = ((TokenStorageManager.findUnspentByTokenId col tid).map
          TokenRecord.amount).sum := by
    intro col tid
    simp [TokenStorageManager.getBalance, TokenStorageManager.mkBalance,
      foldl_amount]
  refine ⟨htot, ?_⟩
  intro col r hu hmem hspent
  rw [htot, htot]
  exact sumUnspent_markAsSpent r r.tokenId col hu hmem hspent rfl

/-- C2 witness: the spec's scenario 3 — two outputs of token `t` with
amounts 700 and 300 give balance 1000; spending the 300-amount output
leaves balance 700 (stated as 1000 = 700 + 300). -/
theorem C2_balance_invariant_witness :
    (TokenStorageManager.getBalance
        [TokenRecord.mk "a" 0 "t" 700 none "l" 1000 1 false,
         TokenRecord.mk "b" 1 "t" 300 none "l" 1000 2 false] "t").totalAmount
      = (TokenStorageManager.getBalance
          (TokenStorageManager.markAsSpent
            [TokenRecord.mk "a" 0 "t" 700 none "l" 1000 1 false,
             TokenRecord.mk "b" 1 "t" 300 none "l" 1000 2 false] "b" 1)
          "t").totalAmount + 300 :=
  C2_balance_invariant.2
    [TokenRecord.mk "a" 0 "t" 700 none "l" 1000 1 false,
     TokenRecord.mk "b" 1 "t" 300 none "l" 1000 2 false]
    (TokenRecord.mk "b" 1 "t" 300 none "l" 1000 2 false)
    (by simp [uniqueKeys]) (by simp) rfl

/-- After `deleteToken` on a key, no remaining document carries that key,
provided the collection satisfied the unique-key invariant. -/
theorem deleteToken_no_match (txid : String) (i : Nat) :
    ∀ col : TokenStorageManager.Collection, uniqueKeys col →
    ∀ r ∈ TokenStorageManager.deleteToken col txid i,
      ¬(r.txid = txid ∧ r.outputIndex = i) := by
  intro col
  induction col with
  | nil =>
    intro _ r hr
    simp [TokenStorageManager.deleteToken] at hr
  | cons a rest ih =>
    intro hu r hr
    rcases List.pairwise_cons.mp hu with ⟨ha, hurest⟩
    rw [TokenStorageManager.deleteToken] at hr
    by_cases hm : TokenStorageManager.matchesKey txid i a = true
    · rw [if_pos hm] at hr
      rcases matchesKey_iff.mp hm with ⟨hat, hao⟩
      rintro ⟨h1, h2⟩
      rcases ha r hr with hne | hne
      · exact hne (by rw [hat, h1])
      · exact hne (by rw [hao, h2])
    · rw [if_neg hm] at hr
      rcases List.mem_cons.mp hr with h1 | h1
      · rintro ⟨h2, h3⟩
        subst h1
        exact hm (matchesKey_iff.mpr ⟨h2, h3⟩)
      · exact ih hurest r h1

/-- Members of an insertion step of the history sort come from the
inserted element or the base list. -/
theorem mem_insertDesc {a x : TokenRecord} {l : List TokenRecord}
    (h : a ∈ TokenStorageManager.insertDesc x l) : a = x ∨ a ∈ l := by
  induction l with
  | nil =>
    rw [TokenStorageManager.insertDesc] at h
    simp at h
    left
    exact h
  | cons y ys ih =>
    rw [TokenStorageManager.insertDesc] at h
    by_cases hc : y.createdAt < x.createdAt
    · rw [if_pos hc] at h
      rcases List.mem_cons.mp h with h1 | h1
      · left; exact h1
      · right; exact h1
    · rw [if_neg hc] at h
      rcases List.mem_cons.mp h with h1 | h1
      · right; rw [h1]; exact List.mem_cons_self y ys
      · rcases ih h1 with h2 | h2
        · left; exact h2
        · right; exact List.mem_cons_of_mem y h2

/-- The history sort returns a sublist of its input, memberwise. -/
theorem mem_sortByCreatedAtDesc {a : TokenRecord} :
    ∀ {l : List TokenRecord},
    a ∈ TokenStorageManager.sortByCreatedAtDesc l → a ∈ l := by
  intro l
  induction l with
  | nil =>
    intro h
    simp [TokenStorageManager.sortByCreatedAtDesc] at h
  | cons x xs ih =>
    intro h
    rw [TokenStorageManager.sortByCreatedAtDesc] at h
    rcases mem_insertDesc h with h1 | h1
    · rw [h1]; exact List.mem_cons_self x xs
    · exact List.mem_cons_of_mem x (ih h1)

/-- Every record `getHistory` returns is a document of the collection. -/
theorem mem_getHistory {a : TokenRecord} {col : TokenStorageManager.Collection}
    {tid : String} {limit : Nat}
    (h : a ∈ TokenStorageManager.getHistory col tid limit) : a ∈ col := by
  rw [TokenStorageManager.getHistory] at h
  exact (List.mem_filter.mp (mem_sortByCreatedAtDesc
    (List.mem_of_mem_take h))).1

/-- A balance summary's total is the sum of its listed utxo amounts. -/
theorem mkBalance_totalAmount (tid : String) (records : List TokenRecord) :
    (TokenStorageManager.mkBalance tid records).totalAmount
      = ((TokenStorageManager.mkBalance tid records).utxos.map
          TokenBalanceUtxo.amount).sum := by
  simp [TokenStorageManager.mkBalance, foldl_amount, List.map_map]
  rfl

/-- Every utxo entry of every balance `getAllBalances` returns comes from
an unspent document of the collection, sharing its key and amount. -/
theorem getAllBalances_utxos {col : TokenStorageManager.Collection}
    {b : TokenBalance} (hb : b ∈ TokenStorageManager.getAllBalances col)
    {u : TokenBalanceUtxo} (hu : u ∈ b.utxos) :
    ∃ a ∈ col, a.spent = false ∧ u.txid = a.txid
      ∧ u.outputIndex = a.outputIndex ∧ u.amount = a.amount := by
  rcases List.mem_map.mp hb with ⟨tid, htid, rfl⟩
  simp only [TokenStorageManager.mkBalance] at hu
  rcases List.mem_map.mp hu with ⟨a, hag, rfl⟩
  have h1 := List.mem_filter.mp hag
  have h2 := List.mem_filter.mp h1.1
  exact ⟨a, h2.1, by simpa using h2.2, rfl, rfl, rfl⟩

/-- Every balance `getAllBalances` returns totals exactly its own utxo
amounts. -/
theorem getAllBalances_total {col : TokenStorageManager.Collection}
    {b : TokenBalance} (hb : b ∈ TokenStorageManager.getAllBalances col) :
    b.totalAmount = (b.utxos.map TokenBalanceUtxo.amount).sum := by
  rcases List.mem_map.mp hb with ⟨tid, htid, rfl⟩
  exact mkBalance_totalAmount tid _

/-- C7: eviction finality — after `deleteToken` on a key (under the
unique-key invariant), the key appears in no record returned by
`getHistory`, in no record returned by `findUnspentByTokenId`, and in no
utxo entry of any balance returned by `getAllBalances`; each returned
balance totals exactly its own utxo amounts, so the evicted key
contributes nothing to any balance. -/
theorem C7_eviction_finality (col : TokenStorageManager.Collection)
    (txid : String) (i : Nat) (tid : String) (limit : Nat)
    (hu : uniqueKeys col) :
    (∀ r ∈ TokenStorageManager.getHistory
        (TokenStorageManager.deleteToken col txid i) tid limit,
      ¬(r.txid = txid ∧ r.outputIndex = i))
    ∧ (∀ r ∈ TokenStorageManager.findUnspentByTokenId
        (TokenStorageManager.deleteToken col txid i) tid,
      ¬(r.txid = txid ∧ r.outputIndex = i))
    ∧ (∀ b ∈ TokenStorageManager.getAllBalances
        (TokenStorageManager.deleteToken col txid i),
      (∀ u ∈ b.utxos, ¬(u.txid = txid ∧ u.outputIndex = i))
      ∧ b.totalAmount = (b.utxos.map TokenBalanceUtxo.amount).sum) := by
  have hno := deleteToken_no_match txid i col hu
  refine ⟨?_, ?_, ?_⟩
  · intro r hr
    exact hno r (mem_getHistory hr)
  · intro r hr
    exact hno r (List.mem_filter.mp hr).1
  · intro b hb
    refine ⟨?_, getAllBalances_total hb⟩
    intro u hu2
    rcases getAllBalances_utxos hb hu2 with ⟨a, hacol, _, ht, ho, _⟩
    rintro ⟨h1, h2⟩
    exact hno a hacol ⟨by rw [← ht, h1], by rw [← ho, h2]⟩

/-- C7 witness: eviction of `("b", 1)` from a two-record collection — the
key is gone from history, unspent utxos and all balances. -/
theorem C7_eviction_finality_witness :
    (∀ r ∈ TokenStorageManager.getHistory
        (TokenStorageManager.deleteToken
          [TokenRecord.mk "a" 0 "t" 700 none "l" 1000 1 false,
           TokenRecord.mk "b" 1 "t" 300 none "l" 1000 2 false] "b" 1) "t" 50,
      ¬(r.txid = "b" ∧ r.outputIndex = 1))
    ∧ (∀ r ∈ TokenStorageManager.findUnspentByTokenId
        (TokenStorageManager.deleteToken
          [TokenRecord.mk "a" 0 "t" 700 none "l" 1000 1 false,
           TokenRecord.mk "b" 1 "t" 300 none "l" 1000 2 false] "b" 1) "t",
      ¬(r.txid = "b" ∧ r.outputIndex = 1))
    ∧ (∀ b ∈ TokenStorageManager.getAllBalances
        (TokenStorageManager.deleteToken
          [TokenRecord.mk "a" 0 "t" 700 none "l" 1000 1 false,
           TokenRecord.mk "b" 1 "t" 300 none "l" 1000 2 false] "b" 1),
      (∀ u ∈ b.utxos, ¬(u.txid = "b" ∧ u.outputIndex = 1))
      ∧ b.totalAmount = (b.utxos.map TokenBalanceUtxo.amount).sum) :=
  C7_eviction_finality
    [TokenRecord.mk "a" 0 "t" 700 none "l" 1000 1 false,
     TokenRecord.mk "b" 1 "t" 300 none "l" 1000 2 false]
    "b" 1 "t" 50 (by simp [uniqueKeys])

end TokenisationWorkshop
